import Mathlib

/- Verification of the rmp-eval streaming-statistics core: the P^2 quantile
estimator (quantileestimator.cpp), the TimerReport running aggregator and its
histogram bucketing (reporter.cpp), and the receive-path timestamp delta
tracking and error dispatch (ethercatnictest.cpp).

Embedding conventions: C++ double values are embedded as exact rationals;
uint64_t counters use Nat, with an explicit % 2^64 on the running sum (the one
place wrap-around is reachable); the unguarded integer division inside
GetBucketIndex is embedded as an Option, with none modelling the
division-by-zero fault that the C++ exhibits when bucketWidth = 0. -/

namespace Evaluator

/-- Pointwise update of a 5-slot std::array modelled as a function. -/
def upd (f : ℕ → ℚ) (i : ℕ) (v : ℚ) : ℕ → ℚ := fun j => if j = i then v else f j

/-- Array contents from a list literal: entry i of the list, 0 outside. -/
def ofList (l : List ℚ) : ℕ → ℚ := fun i => l.getD i 0

/-- State of the P^2 estimator (quantileestimator.h): five marker heights,
five marker positions, five desired positions and their fixed increments. -/
structure QuantileEstimator where
  numObservations : ℕ
  quantile : ℚ
  markerHeights : ℕ → ℚ
  markerPositions : ℕ → ℚ
  desiredMarkerPositions : ℕ → ℚ
  desiredMarkerPositionIncrements : ℕ → ℚ

/-- Constructor QuantileEstimator::QuantileEstimator(_quantile). -/
def QuantileEstimator.init (q : ℚ) : QuantileEstimator where
  numObservations := 0
  quantile := q
  markerHeights := ofList [0, 0, 0, 0, 0]
  markerPositions := ofList [0, 1, 2, 3, 4]
  desiredMarkerPositions := ofList [0, 1, 2, 3, 4]
  desiredMarkerPositionIncrements := ofList [0, q / 2, q, (1 + q) / 2, 1]

/-- The std::sort call on the five marker heights after the 5th observation. -/
def sortHeights (f : ℕ → ℚ) : ℕ → ℚ :=
  ofList (List.insertionSort (· ≤ ·) [f 0, f 1, f 2, f 3, f 4])

/-- QuantileEstimator::AddInitialObservation. -/
def QuantileEstimator.AddInitialObservation (s : QuantileEstimator) (observation : ℚ) :
    QuantileEstimator :=
  let h := upd s.markerHeights s.numObservations observation
  if s.numObservations + 1 = 5 then
    { s with markerHeights := sortHeights h, numObservations := s.numObservations + 1 }
  else
    { s with markerHeights := h, numObservations := s.numObservations + 1 }

/-- QuantileEstimator::AdjustMarkerPositions: pick the increment bound from the
if chain (possibly clamping the extreme heights), increment the positions past
the bound, and add the fixed increments to the desired positions. -/
def QuantileEstimator.AdjustMarkerPositions (s : QuantileEstimator) (observation : ℚ) :
    QuantileEstimator :=
  let bh : ℕ × (ℕ → ℚ) :=
    if observation < s.markerHeights 0 then (0, upd s.markerHeights 0 observation)
    else if observation < s.markerHeights 1 then (0, s.markerHeights)
    else if observation < s.markerHeights 2 then (1, s.markerHeights)
    else if observation < s.markerHeights 3 then (2, s.markerHeights)
    else if observation ≤ s.markerHeights 4 then (3, s.markerHeights)
    else (3, upd s.markerHeights 4 observation)
  { s with
    markerHeights := bh.2
    markerPositions := fun j =>
      if bh.1 + 1 ≤ j ∧ j < 5 then s.markerPositions j + 1 else s.markerPositions j
    desiredMarkerPositions := fun j =>
      if j < 5 then s.desiredMarkerPositions j + s.desiredMarkerPositionIncrements j
      else s.desiredMarkerPositions j }

/-- QuantileEstimator::Parabolic. -/
def QuantileEstimator.Parabolic (s : QuantileEstimator) (index : ℕ) (increment : ℤ) : ℚ :=
  let height := s.markerHeights index
  let nxt := index + 1
  let prv := index - 1
  let prevPosition := s.markerPositions prv
  let nextPosition := s.markerPositions nxt
  let factor := (increment : ℚ) / (nextPosition - prevPosition)
  let curPosition := s.markerPositions index
  let addend1 := (curPosition - prevPosition + (increment : ℚ)) *
    (s.markerHeights nxt - height) / (nextPosition - curPosition)
  let addend2 := (nextPosition - curPosition - (increment : ℚ)) *
    (height - s.markerHeights prv) / (curPosition - prevPosition)
  height + factor * (addend1 + addend2)

/-- QuantileEstimator::Linear. -/
def QuantileEstimator.Linear (s : QuantileEstimator) (index : ℕ) (increment : ℤ) : ℚ :=
  let other := ((index : ℤ) + increment).toNat
  s.markerHeights index + (increment : ℚ) *
    (s.markerHeights other - s.markerHeights index) /
    (s.markerPositions other - s.markerPositions index)

/-- One iteration of the QuantileEstimator::AdjustMarkerHeights loop body, at a
given marker index. -/
def QuantileEstimator.AdjustHeightAt (s : QuantileEstimator) (index : ℕ) : QuantileEstimator :=
  let markerPosition := s.markerPositions index
  let difference := s.desiredMarkerPositions index - markerPosition
  if (1 ≤ difference ∧ 1 < s.markerPositions (index + 1) - markerPosition) ∨
     (difference ≤ -1 ∧ s.markerPositions (index - 1) - markerPosition < -1) then
    let increment : ℤ := if 0 < difference then 1 else -1
    let candidate := s.Parabolic index increment
    let newHeight :=
      if s.markerHeights (index - 1) < candidate ∧ candidate < s.markerHeights (index + 1)
      then candidate else s.Linear index increment
    { s with markerHeights := upd s.markerHeights index newHeight
             markerPositions := upd s.markerPositions index (markerPosition + (increment : ℚ)) }
  else s

/-- QuantileEstimator::AdjustMarkerHeights: the loop runs index = 1, 2, 3. -/
def QuantileEstimator.AdjustMarkerHeights (s : QuantileEstimator) : QuantileEstimator :=
  ((s.AdjustHeightAt 1).AdjustHeightAt 2).AdjustHeightAt 3

/-- QuantileEstimator::GetQuantile returns the middle marker height. -/
def QuantileEstimator.GetQuantile (s : QuantileEstimator) : ℚ := s.markerHeights 2

/-- QuantileEstimator::AddObservation. -/
def QuantileEstimator.AddObservation (s : QuantileEstimator) (observation : ℚ) :
    QuantileEstimator :=
  if s.numObservations < 5 then s.AddInitialObservation observation
  else { s.AdjustMarkerPositions observation with
           numObservations := s.numObservations + 1 }.AdjustMarkerHeights

/-- Feed a stream of observations to a fresh estimator with target quantile q. -/
def runQE (q : ℚ) (xs : List ℚ) : QuantileEstimator :=
  xs.foldl QuantileEstimator.AddObservation (QuantileEstimator.init q)

def uint64Mod : ℕ := 2 ^ 64

/-- Value of std::numeric_limits<uint64_t>::max(). -/
def uint64Max : ℕ := uint64Mod - 1

/-- Number of histogram buckets (reporter.h). -/
def BucketCount : ℕ := 5

/-- Fueled halving recursion computing the number of binary digits; the fuel
argument only makes the recursion structural and never runs out when it starts
at n. -/
def bitWidthAux : ℕ → ℕ → ℕ
  | 0, _ => 0
  | fuel + 1, n => if n = 0 then 0 else bitWidthAux fuel (n / 2) + 1

/-- Value of std::bit_width n: the number of bits needed to represent n, 0 for
n = 0. -/
def bitWidth (n : ℕ) : ℕ := bitWidthAux n n

/-- GetBucketIndex of reporter.cpp: deviations = element / bucketWidth, bucket
index = bit width of deviations, clamped to the last bucket.  The division is
unguarded in the source; none models the division-by-zero fault when
bucketWidth = 0. -/
def GetBucketIndex (element bucketWidth bucketCount : ℕ) : Option ℕ :=
  if bucketWidth = 0 then none
  else some (min (bitWidth (element / bucketWidth)) (bucketCount - 1))

/-- State of TimerReport (reporter.h): min/max with their iteration indices,
running sum and count, the median estimator, target, bucket width, buckets.
The optional uploadLocation snapshot publication copies this state outward and
does not affect it, so it is not part of the state. -/
structure TimerReport where
  min : ℕ
  max : ℕ
  sum : ℕ
  minIndex : ℤ
  maxIndex : ℤ
  observations : ℕ
  median : QuantileEstimator
  target : ℕ
  bucketWidth : ℕ
  buckets : ℕ → ℕ

/-- Constructor TimerReport::TimerReport with the in-class member initializers
of reporter.h (median is a 0.50-quantile estimator). -/
def TimerReport.init (argTarget argBucketWidth : ℕ) : TimerReport where
  min := uint64Max
  max := 0
  sum := 0
  minIndex := -1
  maxIndex := -1
  observations := 0
  median := QuantileEstimator.init (1 / 2)
  target := argTarget
  bucketWidth := argBucketWidth
  buckets := fun _ => 0

/-- TimerReport::AddObservation.  The result is none exactly when
GetBucketIndex faults (bucketWidth = 0): in C++ that call never returns. -/
def TimerReport.AddObservation (s : TimerReport) (observation : ℕ) (index : ℤ) :
    Option TimerReport :=
  let difference := if s.target ≤ observation then observation - s.target else 0
  (GetBucketIndex difference s.bucketWidth BucketCount).map fun bucketIndex =>
    { observations := s.observations + 1
      sum := (s.sum + observation) % uint64Mod
      median := s.median.AddObservation (observation : ℚ)
      min := if observation < s.min then observation else s.min
      minIndex := if observation < s.min then index else s.minIndex
      max := if s.max < observation then observation else s.max
      maxIndex := if s.max < observation then index else s.maxIndex
      target := s.target
      bucketWidth := s.bucketWidth
      buckets := fun j => if j = bucketIndex then s.buckets j + 1 else s.buckets j }

/-- Feed a list of (observation, index) pairs to a TimerReport. -/
def runReport : TimerReport → List (ℕ × ℤ) → Option TimerReport
  | s, [] => some s
  | s, p :: rest =>
    match s.AddObservation p.1 p.2 with
    | none => none
    | some s2 => runReport s2 rest

/-- Sum of the five histogram bucket counters. -/
def sumBuckets (s : TimerReport) : ℕ :=
  s.buckets 0 + s.buckets 1 + s.buckets 2 + s.buckets 3 + s.buckets 4

/-- Per-clock-domain previous-timestamp state: one (HardwareNanoseconds,
HaveHardware) or (SoftwareNanoseconds, HaveSoftware) pair of the PrevStats
struct in nictest.h. -/
structure DomainState where
  HaveTimestamp : Bool
  PrevNanoseconds : ℤ
deriving DecidableEq

def DomainState.init : DomainState := { HaveTimestamp := false, PrevNanoseconds := 0 }

/-- One timestamp update for one clock domain, from the inter-arrival delta
blocks of EthercatNicTest::Receive: returns the new state and the emitted
delta, if any.  The previous timestamp is overwritten in every case. -/
def updateDomain (s : DomainState) (currentNs : ℤ) : DomainState × Option ℤ :=
  let emitted :=
    if s.HaveTimestamp then
      let delta := currentNs - s.PrevNanoseconds
      if 0 ≤ delta then some delta else none
    else none
  (⟨true, currentNs⟩, emitted)

/-- Feed a list of raw timestamps through one clock domain, collecting the
emitted deltas in order. -/
def runDomain (s : DomainState) : List ℤ → DomainState × List (Option ℤ)
  | [] => (s, [])
  | t :: rest =>
    let step := updateDomain s t
    let next := runDomain step.1 rest
    (next.1, step.2 :: next.2)

/-- Outcome of one EthercatNicTest::Receive call as seen by the caller. -/
inductive ReceiveOutcome where
  | fatalPollError
  | noFrame
  | frameProcessed
deriving DecidableEq

/-- Error dispatch of EthercatNicTest::Receive: poll result first (negative is
a thrown runtime error, zero is a timeout returning false), then the recvmsg
result (negative returns false), otherwise the frame is processed. -/
def receiveDispatch (pollResult recvResult : ℤ) : ReceiveOutcome :=
  if pollResult < 0 then ReceiveOutcome.fatalPollError
  else if pollResult = 0 then ReceiveOutcome.noFrame
  else if recvResult < 0 then ReceiveOutcome.noFrame
  else ReceiveOutcome.frameProcessed

/-- Monotone chain of the five array entries (sorted ascending heights). -/
def mono5 (f : ℕ → ℚ) : Prop := ∀ j, j < 4 → f j ≤ f (j + 1)

/-- Strictly increasing chain of the five array entries. -/
def strict5 (f : ℕ → ℚ) : Prop := ∀ j, j < 4 → f j < f (j + 1)

/-- Position invariant of the P^2 estimator state: the leftmost marker
position is pinned at 0, positions strictly increase left to right, each
interior desired position trails its actual position by strictly less than 1,
the desired positions of interior markers are separated by at least 1, and the
desired-position increments are non-negative and monotone. -/
def PosInv (s : QuantileEstimator) : Prop :=
  s.markerPositions 0 = 0 ∧
  strict5 s.markerPositions ∧
  (∀ i, 1 ≤ i → i ≤ 3 → -1 < s.desiredMarkerPositions i - s.markerPositions i) ∧
  1 ≤ s.desiredMarkerPositions 1 ∧
  1 ≤ s.desiredMarkerPositions 2 - s.desiredMarkerPositions 1 ∧
  1 ≤ s.desiredMarkerPositions 3 - s.desiredMarkerPositions 2 ∧
  0 ≤ s.desiredMarkerPositionIncrements 1 ∧
  s.desiredMarkerPositionIncrements 1 ≤ s.desiredMarkerPositionIncrements 2 ∧
  s.desiredMarkerPositionIncrements 2 ≤ s.desiredMarkerPositionIncrements 3

/- Helper lemmas. -/

theorem bitWidthAux_le_iff (fuel : ℕ) :
    ∀ n k, n ≤ fuel → (bitWidthAux fuel n ≤ k ↔ n < 2 ^ k) := by
  induction fuel with
  | zero =>
    intro n k hn
    have hz : n = 0 := Nat.le_zero.mp hn
    subst hz
    simp [bitWidthAux, Nat.pos_pow_of_pos]
  | succ fuel ih =>
    intro n k hn
    by_cases h0 : n = 0
    · subst h0
      simp [bitWidthAux, Nat.pos_pow_of_pos]
    · rw [show bitWidthAux (fuel + 1) n = bitWidthAux fuel (n / 2) + 1 by
        simp [bitWidthAux, h0]]
      cases k with
      | zero =>
        constructor
        · omega
        · intro h
          omega
      | succ k =>
        rw [Nat.succ_le_succ_iff, ih (n / 2) k (by omega), pow_succ]
        rw [Nat.div_lt_iff_lt_mul (by norm_num : (0:ℕ) < 2)]

/-- Characterization of std::bit_width: bitWidth n ≤ k exactly when n < 2^k. -/
theorem bitWidth_le_iff (n k : ℕ) : bitWidth n ≤ k ↔ n < 2 ^ k :=
  bitWidthAux_le_iff n n k le_rfl

theorem foldl_min_le_init (l : List ℕ) : ∀ a, l.foldl min a ≤ a := by
  induction l with
  | nil => intro a; simp
  | cons v rest ih =>
    intro a
    calc (v :: rest).foldl min a = rest.foldl min (min a v) := rfl
    _ ≤ min a v := ih (min a v)
    _ ≤ a := min_le_left a v

theorem foldl_min_le_mem (l : List ℕ) : ∀ a v, v ∈ l → l.foldl min a ≤ v := by
  induction l with
  | nil => intro a v hv; cases hv
  | cons w rest ih =>
    intro a v hv
    rcases List.mem_cons.mp hv with h | h
    · subst h
      calc (v :: rest).foldl min a = rest.foldl min (min a v) := rfl
      _ ≤ min a v := foldl_min_le_init rest (min a v)
      _ ≤ v := min_le_right a v
    · exact ih (min a w) v h

theorem foldl_min_attained (l : List ℕ) : ∀ a, l.foldl min a = a ∨ l.foldl min a ∈ l := by
  induction l with
  | nil => intro a; left; rfl
  | cons w rest ih =>
    intro a
    rcases ih (min a w) with h | h
    · rcases le_total a w with haw | haw
      · left
        calc (w :: rest).foldl min a = rest.foldl min (min a w) := rfl
        _ = min a w := h
        _ = a := min_eq_left haw
      · right
        refine List.mem_cons.mpr (Or.inl ?_)
        calc (w :: rest).foldl min a = rest.foldl min (min a w) := rfl
        _ = min a w := h
        _ = w := min_eq_right haw
    · right
      exact List.mem_cons.mpr (Or.inr h)

theorem foldl_max_ge_init (l : List ℕ) : ∀ a, a ≤ l.foldl max a := by
  induction l with
  | nil => intro a; simp
  | cons v rest ih =>
    intro a
    calc a ≤ max a v := le_max_left a v
    _ ≤ rest.foldl max (max a v) := ih (max a v)
    _ = (v :: rest).foldl max a := rfl

theorem foldl_max_ge_mem (l : List ℕ) : ∀ a v, v ∈ l → v ≤ l.foldl max a := by
  induction l with
  | nil => intro a v hv; cases hv
  | cons w rest ih =>
    intro a v hv
    rcases List.mem_cons.mp hv with h | h
    · subst h
      calc v ≤ max a v := le_max_right a v
      _ ≤ rest.foldl max (max a v) := foldl_max_ge_init rest (max a v)
      _ = (v :: rest).foldl max a := rfl
    · exact ih (max a w) v h

theorem foldl_max_attained (l : List ℕ) : ∀ a, l.foldl max a = a ∨ l.foldl max a ∈ l := by
  induction l with
  | nil => intro a; left; rfl
  | cons w rest ih =>
    intro a
    rcases ih (max a w) with h | h
    · rcases le_total a w with haw | haw
      · right
        refine List.mem_cons.mpr (Or.inl ?_)
        calc (w :: rest).foldl max a = rest.foldl max (max a w) := rfl
        _ = max a w := h
        _ = w := max_eq_right haw
      · left
        calc (w :: rest).foldl max a = rest.foldl max (max a w) := rfl
        _ = max a w := h
        _ = a := max_eq_left haw
    · right
      exact List.mem_cons.mpr (Or.inr h)

/-- Decomposition of a successful TimerReport::AddObservation call: some bucket
b at most 4 is incremented, the count advances by one, and min/max and their
indices update by the strict comparisons of the source. -/
theorem TimerReport.AddObservation_eq_some (s : TimerReport) (v : ℕ) (i : ℤ)
    (r : TimerReport) (h : s.AddObservation v i = some r) :
    ∃ b, b ≤ 4 ∧
      r.buckets = (fun j => if j = b then s.buckets j + 1 else s.buckets j) ∧
      r.observations = s.observations + 1 ∧
      r.min = (if v < s.min then v else s.min) ∧
      r.minIndex = (if v < s.min then i else s.minIndex) ∧
      r.max = (if s.max < v then v else s.max) ∧
      r.maxIndex = (if s.max < v then i else s.maxIndex) := by
  unfold TimerReport.AddObservation at h
  rcases Option.map_eq_some'.mp h with ⟨b, hb, hfb⟩
  refine ⟨b, ?_, ?_⟩
  · unfold GetBucketIndex at hb
    by_cases hw : s.bucketWidth = 0
    · rw [if_pos hw] at hb
      cases hb
    · rw [if_neg hw] at hb
      have hbe := Option.some.inj hb
      rw [← hbe]
      exact le_trans (min_le_right _ _) (by norm_num [BucketCount])
  · subst hfb
    exact ⟨rfl, rfl, rfl, rfl, rfl, rfl⟩

theorem runReport_cons (s : TimerReport) (p : ℕ × ℤ) (rest : List (ℕ × ℤ)) :
    runReport s (p :: rest) =
      match s.AddObservation p.1 p.2 with
      | none => none
      | some s2 => runReport s2 rest := rfl

theorem runReport_cons_eq_some (s : TimerReport) (p : ℕ × ℤ) (rest : List (ℕ × ℤ))
    (r : TimerReport) (h : runReport s (p :: rest) = some r) :
    ∃ s2, s.AddObservation p.1 p.2 = some s2 ∧ runReport s2 rest = some r := by
  rw [runReport_cons] at h
  cases hAdd : s.AddObservation p.1 p.2 with
  | none => rw [hAdd] at h; exact Option.noConfusion h
  | some s2 => rw [hAdd] at h; exact ⟨s2, rfl, h⟩

/-- Running min and max of a TimerReport are left folds of min and max over
the fed values starting from the stored state. -/
theorem runReport_minmax (xs : List (ℕ × ℤ)) :
    ∀ s r, runReport s xs = some r →
      r.min = (xs.map Prod.fst).foldl min s.min ∧
      r.max = (xs.map Prod.fst).foldl max s.max := by
  induction xs with
  | nil =>
    intro s r h
    cases Option.some.inj h
    exact ⟨rfl, rfl⟩
  | cons p rest ih =>
    intro s r h
    obtain ⟨s2, hAdd, hrun⟩ := runReport_cons_eq_some s p rest r h
    obtain ⟨b, _, _, _, hmin, _, hmax, _⟩ :=
      TimerReport.AddObservation_eq_some s p.1 p.2 s2 hAdd
    obtain ⟨ihmin, ihmax⟩ := ih s2 r hrun
    have hstepmin : (if p.1 < s.min then p.1 else s.min) = min s.min p.1 := by
      rcases lt_or_ge p.1 s.min with hc | hc
      · rw [if_pos hc, min_eq_right (le_of_lt hc)]
      · rw [if_neg (not_lt.mpr hc), min_eq_left hc]
    have hstepmax : (if s.max < p.1 then p.1 else s.max) = max s.max p.1 := by
      rcases lt_or_ge s.max p.1 with hc | hc
      · rw [if_pos hc, max_eq_right (le_of_lt hc)]
      · rw [if_neg (not_lt.mpr hc), max_eq_left hc]
    constructor
    · calc r.min = (rest.map Prod.fst).foldl min s2.min := ihmin
      _ = (rest.map Prod.fst).foldl min (min s.min p.1) := by rw [hmin, hstepmin]
      _ = ((p :: rest).map Prod.fst).foldl min s.min := by
        simp [List.map_cons, List.foldl_cons]
    · calc r.max = (rest.map Prod.fst).foldl max s2.max := ihmax
      _ = (rest.map Prod.fst).foldl max (max s.max p.1) := by rw [hmax, hstepmax]
      _ = ((p :: rest).map Prod.fst).foldl max s.max := by
        simp [List.map_cons, List.foldl_cons]

/-- The stored minIndex designates the first fed pair achieving the running
minimum whenever the minimum improved on the initial state, and is untouched
otherwise. -/
theorem runReport_minIndex (xs : List (ℕ × ℤ)) :
    ∀ s r, runReport s xs = some r →
      (r.min < s.min →
        xs.find? (fun p => p.1 = r.min) = some (r.min, r.minIndex)) ∧
      (s.min ≤ r.min → r.minIndex = s.minIndex ∧ r.min = s.min) := by
  induction xs with
  | nil =>
    intro s r h
    cases Option.some.inj h
    exact ⟨fun hlt => absurd hlt (lt_irrefl _), fun _ => ⟨rfl, rfl⟩⟩
  | cons p rest ih =>
    intro s r h
    obtain ⟨s2, hAdd, hrun⟩ := runReport_cons_eq_some s p rest r h
    obtain ⟨b, _, _, _, hmin, hminIdx, _, _⟩ :=
      TimerReport.AddObservation_eq_some s p.1 p.2 s2 hAdd
    obtain ⟨ih1, ih2⟩ := ih s2 r hrun
    have hrmin_le : r.min ≤ s2.min := by
      rw [(runReport_minmax rest s2 r hrun).1]
      exact foldl_min_le_init _ _
    constructor
    · intro hlt
      by_cases hv : p.1 < s.min
      · have hs2min : s2.min = p.1 := by rw [hmin, if_pos hv]
        have hs2idx : s2.minIndex = p.2 := by rw [hminIdx, if_pos hv]
        by_cases heq : r.min = p.1
        · have hidx : r.minIndex = p.2 := by
            obtain ⟨h1, _⟩ := ih2 (by rw [hs2min, ← heq])
            rw [h1, hs2idx]
          rw [List.find?_cons_of_pos _ (by simp [heq.symm])]
          rw [heq, hidx]
        · have hlt2 : r.min < s2.min :=
            lt_of_le_of_ne hrmin_le (by rw [hs2min]; exact heq)
          rw [List.find?_cons_of_neg _ (by simp; intro hh; exact heq (hh.symm))]
          exact ih1 hlt2
      · have hs2min : s2.min = s.min := by rw [hmin, if_neg hv]
        have hlt2 : r.min < s2.min := hs2min ▸ hlt
        have hne : p.1 ≠ r.min := by omega
        rw [List.find?_cons_of_neg _ (by simp [hne])]
        exact ih1 hlt2
    · intro hge
      have hs2ge : s2.min ≤ s.min := by
        rw [hmin]
        split
        · omega
        · exact le_rfl
      obtain ⟨hidx, hval⟩ := ih2 (le_trans hs2ge hge)
      by_cases hv : p.1 < s.min
      · exfalso
        have hs2min : s2.min = p.1 := by rw [hmin, if_pos hv]
        omega
      · have hs2min : s2.min = s.min := by rw [hmin, if_neg hv]
        have hs2idx : s2.minIndex = s.minIndex := by rw [hminIdx, if_neg hv]
        exact ⟨by rw [hidx, hs2idx], by rw [hval, hs2min]⟩

/-- The stored maxIndex designates the first fed pair achieving the running
maximum whenever the maximum improved on the initial state, and is untouched
otherwise. -/
theorem runReport_maxIndex (xs : List (ℕ × ℤ)) :
    ∀ s r, runReport s xs = some r →
      (s.max < r.max →
        xs.find? (fun p => p.1 = r.max) = some (r.max, r.maxIndex)) ∧
      (r.max ≤ s.max → r.maxIndex = s.maxIndex ∧ r.max = s.max) := by
  induction xs with
  | nil =>
    intro s r h
    cases Option.some.inj h
    exact ⟨fun hlt => absurd hlt (lt_irrefl _), fun _ => ⟨rfl, rfl⟩⟩
  | cons p rest ih =>
    intro s r h
    obtain ⟨s2, hAdd, hrun⟩ := runReport_cons_eq_some s p rest r h
    obtain ⟨b, _, _, _, _, _, hmax, hmaxIdx⟩ :=
      TimerReport.AddObservation_eq_some s p.1 p.2 s2 hAdd
    obtain ⟨ih1, ih2⟩ := ih s2 r hrun
    have hrmax_ge : s2.max ≤ r.max := by
      rw [(runReport_minmax rest s2 r hrun).2]
      exact foldl_max_ge_init _ _
    constructor
    · intro hlt
      by_cases hv : s.max < p.1
      · have hs2max : s2.max = p.1 := by rw [hmax, if_pos hv]
        have hs2idx : s2.maxIndex = p.2 := by rw [hmaxIdx, if_pos hv]
        by_cases heq : r.max = p.1
        · have hidx : r.maxIndex = p.2 := by
            obtain ⟨h1, _⟩ := ih2 (by rw [hs2max, ← heq])
            rw [h1, hs2idx]
          rw [List.find?_cons_of_pos _ (by simp [heq.symm])]
          rw [heq, hidx]
        · have hlt2 : s2.max < r.max :=
            lt_of_le_of_ne hrmax_ge (by rw [hs2max]; exact fun hh => heq hh.symm)
          rw [List.find?_cons_of_neg _ (by simp; intro hh; exact heq (hh.symm))]
          exact ih1 hlt2
      · have hs2max : s2.max = s.max := by rw [hmax, if_neg hv]
        have hlt2 : s2.max < r.max := hs2max ▸ hlt
        have hne : p.1 ≠ r.max := by omega
        rw [List.find?_cons_of_neg _ (by simp [hne])]
        exact ih1 hlt2
    · intro hge
      have hs2ge : s.max ≤ s2.max := by
        rw [hmax]
        split
        · omega
        · exact le_rfl
      obtain ⟨hidx, hval⟩ := ih2 (le_trans hge hs2ge)
      by_cases hv : s.max < p.1
      · exfalso
        have hs2max : s2.max = p.1 := by rw [hmax, if_pos hv]
        omega
      · have hs2max : s2.max = s.max := by rw [hmax, if_neg hv]
        have hs2idx : s2.maxIndex = s.maxIndex := by rw [hmaxIdx, if_neg hv]
        exact ⟨by rw [hidx, hs2idx], by rw [hval, hs2max]⟩

/-- Feeding observations preserves the equality between the histogram total
and the observation count. -/
theorem runReport_sumBuckets (xs : List (ℕ × ℤ)) :
    ∀ s r, runReport s xs = some r → sumBuckets s = s.observations →
      sumBuckets r = r.observations := by
  induction xs with
  | nil =>
    intro s r h hs
    cases Option.some.inj h
    exact hs
  | cons p rest ih =>
    intro s r h hs
    obtain ⟨s2, hAdd, hrun⟩ := runReport_cons_eq_some s p rest r h
    obtain ⟨b, hb4, hbuckets, hobs, _, _, _, _⟩ :=
      TimerReport.AddObservation_eq_some s p.1 p.2 s2 hAdd
    refine ih s2 r hrun ?_
    have hsum : sumBuckets s2 = sumBuckets s + 1 := by
      simp only [sumBuckets, hbuckets]
      interval_cases b <;> simp <;> omega
    rw [hsum, hobs, hs]

theorem upd_self (f : ℕ → ℚ) (i : ℕ) : upd f i (f i) = f := by
  funext j
  simp only [upd]
  split_ifs with h
  · rw [h]
  · rfl

theorem upd_apply_ne (f : ℕ → ℚ) (i j : ℕ) (v : ℚ) (h : j ≠ i) : upd f i v j = f j := by
  simp [upd, h]

theorem upd_apply_same (f : ℕ → ℚ) (i : ℕ) (v : ℚ) : upd f i v i = v := by
  simp [upd]

/-- Effect of one AdjustMarkerHeights loop iteration on everything except the
marker heights: desired positions, increments and the observation count are
untouched, and the marker position at the visited index either stays, moves up
by 1 under the positive-drift guard, or moves down by 1 under the
negative-drift guard. -/
theorem AdjustHeightAt_shape (t : QuantileEstimator) (i : ℕ) :
    (t.AdjustHeightAt i).desiredMarkerPositions = t.desiredMarkerPositions ∧
    (t.AdjustHeightAt i).desiredMarkerPositionIncrements =
      t.desiredMarkerPositionIncrements ∧
    (t.AdjustHeightAt i).numObservations = t.numObservations ∧
    ∃ a : ℚ, (t.AdjustHeightAt i).markerPositions = upd t.markerPositions i a ∧
      ((a = t.markerPositions i ∧
        ¬((1 ≤ t.desiredMarkerPositions i - t.markerPositions i ∧
            1 < t.markerPositions (i + 1) - t.markerPositions i) ∨
          (t.desiredMarkerPositions i - t.markerPositions i ≤ -1 ∧
            t.markerPositions (i - 1) - t.markerPositions i < -1))) ∨
       (a = t.markerPositions i + 1 ∧
         1 ≤ t.desiredMarkerPositions i - t.markerPositions i ∧
         1 < t.markerPositions (i + 1) - t.markerPositions i) ∨
       (a = t.markerPositions i - 1 ∧
         t.desiredMarkerPositions i - t.markerPositions i ≤ -1 ∧
         t.markerPositions (i - 1) - t.markerPositions i < -1)) := by
  simp only [QuantileEstimator.AdjustHeightAt]
  by_cases hG : (1 ≤ t.desiredMarkerPositions i - t.markerPositions i ∧
      1 < t.markerPositions (i + 1) - t.markerPositions i) ∨
      (t.desiredMarkerPositions i - t.markerPositions i ≤ -1 ∧
      t.markerPositions (i - 1) - t.markerPositions i < -1)
  · rw [if_pos hG]
    refine ⟨rfl, rfl, rfl, ?_⟩
    by_cases hd : 0 < t.desiredMarkerPositions i - t.markerPositions i
    · refine ⟨t.markerPositions i + 1, ?_, ?_⟩
      · rw [if_pos hd]
        norm_num
      · right
        left
        refine ⟨rfl, ?_, ?_⟩
        · rcases hG with ⟨ha, _⟩ | ⟨ha, _⟩
          · exact ha
          · linarith
        · rcases hG with ⟨_, hb⟩ | ⟨ha, _⟩
          · exact hb
          · linarith
    · refine ⟨t.markerPositions i - 1, ?_, ?_⟩
      · rw [if_neg hd]
        push_cast
        ring_nf
      · right
        right
        refine ⟨rfl, ?_, ?_⟩
        · rcases hG with ⟨ha, _⟩ | ⟨ha, _⟩
          · linarith
          · exact ha
        · rcases hG with ⟨ha, _⟩ | ⟨_, hb⟩
          · linarith
          · exact hb
  · rw [if_neg hG]
    exact ⟨rfl, rfl, rfl, t.markerPositions i, (upd_self _ _).symm, Or.inl ⟨rfl, hG⟩⟩

/-- One AdjustMarkerHeights iteration preserves the strict ordering of marker
positions, leaves every other position unchanged, moves the visited position
by at most 1, never lets the desired position trail the new actual position by
1 or more (granted it trailed by less than 2 and a trailing marker was not
blocked by its left neighbour), and never moves the position down unless the
desired position trailed by at least 1. -/
theorem AdjustHeightAt_posStep (t : QuantileEstimator) (i : ℕ) (h1 : 1 ≤ i) (h3 : i ≤ 3)
    (hstrict : strict5 t.markerPositions)
    (hlb : -2 < t.desiredMarkerPositions i - t.markerPositions i)
    (hnb : t.desiredMarkerPositions i - t.markerPositions i ≤ -1 →
      1 < t.markerPositions i - t.markerPositions (i - 1)) :
    strict5 (t.AdjustHeightAt i).markerPositions ∧
    -1 < t.desiredMarkerPositions i - (t.AdjustHeightAt i).markerPositions i ∧
    (∀ j, j ≠ i → (t.AdjustHeightAt i).markerPositions j = t.markerPositions j) ∧
    t.markerPositions i - 1 ≤ (t.AdjustHeightAt i).markerPositions i ∧
    (-1 < t.desiredMarkerPositions i - t.markerPositions i →
      t.markerPositions i ≤ (t.AdjustHeightAt i).markerPositions i) := by
  obtain ⟨hdmp, hinc, hnum, a, hmp, hcase⟩ := AdjustHeightAt_shape t i
  rw [hmp]
  rcases hcase with ⟨ha, hng⟩ | ⟨ha, hd, hg⟩ | ⟨ha, hd, hg⟩
  · rw [ha, upd_self]
    have hdgt : -1 < t.desiredMarkerPositions i - t.markerPositions i := by
      by_contra hc
      push_neg at hc
      exact hng (Or.inr ⟨hc, by have := hnb hc; linarith⟩)
    exact ⟨hstrict, hdgt, fun j hj => rfl, by linarith, fun _ => le_rfl⟩
  · subst ha
    refine ⟨?_, ?_, fun j hj => upd_apply_ne _ _ _ _ hj, ?_, ?_⟩
    · intro j hj
      by_cases hji : j = i
      · rw [hji, upd_apply_same, upd_apply_ne _ _ _ _ (by omega)]
        linarith
      · by_cases hji1 : j + 1 = i
        · rw [upd_apply_ne _ _ _ _ hji, hji1, upd_apply_same]
          have hj2 := hstrict j hj
          rw [hji1] at hj2
          linarith
        · rw [upd_apply_ne _ _ _ _ hji, upd_apply_ne _ _ _ _ hji1]
          exact hstrict j hj
    · rw [upd_apply_same]
      linarith
    · rw [upd_apply_same]
      linarith
    · intro hpre
      rw [upd_apply_same]
      linarith
  · subst ha
    refine ⟨?_, ?_, fun j hj => upd_apply_ne _ _ _ _ hj, ?_, ?_⟩
    · intro j hj
      by_cases hji : j = i
      · rw [hji, upd_apply_same, upd_apply_ne _ _ _ _ (by omega)]
        have := hstrict i (by omega)
        linarith
      · by_cases hji1 : j + 1 = i
        · rw [upd_apply_ne _ _ _ _ hji, hji1, upd_apply_same]
          have hj2 : j = i - 1 := by omega
          rw [hj2]
          linarith
        · rw [upd_apply_ne _ _ _ _ hji, upd_apply_ne _ _ _ _ hji1]
          exact hstrict j hj
    · rw [upd_apply_same]
      linarith
    · rw [upd_apply_same]
    · intro hpre
      linarith

/-- AddInitialObservation touches only the marker heights and the observation
count. -/
theorem AddInitialObservation_fields (s : QuantileEstimator) (x : ℚ) :
    (s.AddInitialObservation x).markerPositions = s.markerPositions ∧
    (s.AddInitialObservation x).desiredMarkerPositions = s.desiredMarkerPositions ∧
    (s.AddInitialObservation x).desiredMarkerPositionIncrements =
      s.desiredMarkerPositionIncrements ∧
    (s.AddInitialObservation x).numObservations = s.numObservations + 1 := by
  simp only [QuantileEstimator.AddInitialObservation]
  split_ifs <;> exact ⟨rfl, rfl, rfl, rfl⟩

/-- AdjustMarkerPositions increments the positions strictly past some bound at
most 3, adds the fixed increments to all five desired positions, and leaves
the increments and the observation count unchanged. -/
theorem AdjustMarkerPositions_shape (s : QuantileEstimator) (x : ℚ) :
    ∃ b, b ≤ 3 ∧
      (s.AdjustMarkerPositions x).markerPositions = (fun j =>
        if b + 1 ≤ j ∧ j < 5 then s.markerPositions j + 1 else s.markerPositions j) ∧
      (s.AdjustMarkerPositions x).desiredMarkerPositions = (fun j =>
        if j < 5 then s.desiredMarkerPositions j + s.desiredMarkerPositionIncrements j
        else s.desiredMarkerPositions j) ∧
      (s.AdjustMarkerPositions x).desiredMarkerPositionIncrements =
        s.desiredMarkerPositionIncrements ∧
      (s.AdjustMarkerPositions x).numObservations = s.numObservations := by
  simp only [QuantileEstimator.AdjustMarkerPositions]
  split_ifs with h1 h2 h3 h4 h5
  · exact ⟨0, by norm_num, rfl, trivial, trivial, trivial⟩
  · exact ⟨0, by norm_num, rfl, trivial, trivial, trivial⟩
  · exact ⟨1, by norm_num, rfl, trivial, trivial, trivial⟩
  · exact ⟨2, by norm_num, rfl, trivial, trivial, trivial⟩
  · exact ⟨3, by norm_num, rfl, trivial, trivial, trivial⟩
  · exact ⟨3, by norm_num, rfl, trivial, trivial, trivial⟩

/-- AddObservation always advances the observation count by exactly one. -/
theorem AddObservation_numObservations (s : QuantileEstimator) (x : ℚ) :
    (s.AddObservation x).numObservations = s.numObservations + 1 := by
  by_cases h : s.numObservations < 5
  · rw [QuantileEstimator.AddObservation, if_pos h]
    exact (AddInitialObservation_fields s x).2.2.2
  · rw [QuantileEstimator.AddObservation, if_neg h]
    rw [QuantileEstimator.AdjustMarkerHeights]
    rw [(AdjustHeightAt_shape _ 3).2.2.1, (AdjustHeightAt_shape _ 2).2.2.1,
      (AdjustHeightAt_shape _ 1).2.2.1]

/-- The estimator has seen exactly as many observations as were fed. -/
theorem runQE_numObservations (q : ℚ) (xs : List ℚ) :
    (runQE q xs).numObservations = xs.length := by
  suffices h : ∀ s : QuantileEstimator,
      (xs.foldl QuantileEstimator.AddObservation s).numObservations =
        s.numObservations + xs.length by
    rw [runQE, h]
    simp [QuantileEstimator.init]
  induction xs with
  | nil => intro s; rfl
  | cons x rest ih =>
    intro s
    rw [List.foldl_cons, ih, AddObservation_numObservations, List.length_cons]
    omega

theorem upd_mono5 (f : ℕ → ℚ) (i : ℕ) (v : ℚ) (h1 : 1 ≤ i) (h3 : i ≤ 3)
    (hm : mono5 f) (hlo : f (i - 1) ≤ v) (hhi : v ≤ f (i + 1)) : mono5 (upd f i v) := by
  intro j hj
  by_cases hji : j = i
  · rw [hji, upd_apply_same, upd_apply_ne _ _ _ _ (by omega)]
    exact hhi
  · by_cases hji1 : j + 1 = i
    · rw [upd_apply_ne _ _ _ _ hji, hji1, upd_apply_same]
      rw [show j = i - 1 by omega]
      exact hlo
    · rw [upd_apply_ne _ _ _ _ hji, upd_apply_ne _ _ _ _ hji1]
      exact hm j hj

/-- A list of five entries sorted by ≤ reads back as a monotone 5-array. -/
theorem mono5_ofList_of_sorted (l : List ℚ) (hs : l.Sorted (· ≤ ·)) (hl : l.length = 5) :
    mono5 (ofList l) := by
  match l, hl with
  | [a, b, c, d, e], _ =>
    simp only [List.sorted_cons, List.mem_cons, List.sorted_singleton] at hs
    intro j hj
    interval_cases j
    · exact hs.1 b (Or.inl rfl)
    · exact hs.2.1 c (Or.inl rfl)
    · exact hs.2.2.1 d (Or.inl rfl)
    · exact hs.2.2.2.1 e (Or.inl rfl)

/-- The five marker heights are monotone right after the std::sort call. -/
theorem mono5_sortHeights (f : ℕ → ℚ) : mono5 (sortHeights f) := by
  refine mono5_ofList_of_sorted _ ?_ ?_
  · exact List.sorted_insertionSort (· ≤ ·) _
  · rw [(List.perm_insertionSort (· ≤ ·) _).length_eq]
    rfl

/-- AdjustMarkerPositions preserves monotonicity of the marker heights: it can
only clamp the extreme heights with an observation beyond them. -/
theorem AdjustMarkerPositions_mono (s : QuantileEstimator) (x : ℚ)
    (hm : mono5 s.markerHeights) : mono5 (s.AdjustMarkerPositions x).markerHeights := by
  simp only [QuantileEstimator.AdjustMarkerPositions]
  split_ifs with h1 h2 h3 h4 h5 <;> dsimp only
  · intro j hj
    by_cases hj0 : j = 0
    · rw [hj0, upd_apply_same, upd_apply_ne _ _ _ _ (by omega)]
      exact le_trans (le_of_lt h1) (hm 0 (by omega))
    · rw [upd_apply_ne _ _ _ _ hj0, upd_apply_ne _ _ _ _ (by omega)]
      exact hm j hj
  · exact hm
  · exact hm
  · exact hm
  · exact hm
  · intro j hj
    by_cases hj4 : j + 1 = 4
    · rw [upd_apply_ne _ _ _ _ (by omega), hj4, upd_apply_same]
      push_neg at h5
      have := hm j hj
      rw [hj4] at this
      linarith
    · rw [upd_apply_ne _ _ _ _ (by omega), upd_apply_ne _ _ _ _ (by omega)]
      exact hm j hj

/-- One AdjustMarkerHeights iteration preserves monotonicity of the marker
heights: the parabolic candidate is accepted only strictly between the
neighbour heights, and the linear fallback moves the height towards a
neighbour by less than the full gap. -/
theorem AdjustHeightAt_mono (t : QuantileEstimator) (i : ℕ) (h1 : 1 ≤ i) (h3 : i ≤ 3)
    (hm : mono5 t.markerHeights) : mono5 (t.AdjustHeightAt i).markerHeights := by
  have hlo : t.markerHeights (i - 1) ≤ t.markerHeights i := by
    have := hm (i - 1) (by omega)
    rw [show i - 1 + 1 = i by omega] at this
    exact this
  have hhi : t.markerHeights i ≤ t.markerHeights (i + 1) := hm i (by omega)
  simp only [QuantileEstimator.AdjustHeightAt]
  by_cases hG : (1 ≤ t.desiredMarkerPositions i - t.markerPositions i ∧
      1 < t.markerPositions (i + 1) - t.markerPositions i) ∨
      (t.desiredMarkerPositions i - t.markerPositions i ≤ -1 ∧
      t.markerPositions (i - 1) - t.markerPositions i < -1)
  · rw [if_pos hG]
    by_cases hC : t.markerHeights (i - 1) <
        t.Parabolic i (if 0 < t.desiredMarkerPositions i - t.markerPositions i then 1 else -1) ∧
        t.Parabolic i (if 0 < t.desiredMarkerPositions i - t.markerPositions i then 1 else -1) <
        t.markerHeights (i + 1)
    · rw [if_pos hC]
      exact upd_mono5 _ i _ h1 h3 hm (le_of_lt hC.1) (le_of_lt hC.2)
    · rw [if_neg hC]
      by_cases hd : 0 < t.desiredMarkerPositions i - t.markerPositions i
      · have hg : 1 < t.markerPositions (i + 1) - t.markerPositions i := by
          rcases hG with ⟨_, hb⟩ | ⟨ha, _⟩
          · exact hb
          · linarith
        rw [if_pos hd]
        refine upd_mono5 _ i _ h1 h3 hm ?_ ?_
        · rw [QuantileEstimator.Linear]
          rw [show (((i : ℤ) + 1).toNat) = i + 1 by omega]
          have hq1 : 0 ≤ (t.markerHeights (i + 1) - t.markerHeights i) /
              (t.markerPositions (i + 1) - t.markerPositions i) :=
            div_nonneg (by linarith) (by linarith)
          push_cast
          rw [one_mul]
          linarith
        · rw [QuantileEstimator.Linear]
          rw [show (((i : ℤ) + 1).toNat) = i + 1 by omega]
          have hq2 : (t.markerHeights (i + 1) - t.markerHeights i) /
              (t.markerPositions (i + 1) - t.markerPositions i) ≤
              t.markerHeights (i + 1) - t.markerHeights i :=
            div_le_self (by linarith) (by linarith)
          push_cast
          rw [one_mul]
          linarith
      · have hg : t.markerPositions (i - 1) - t.markerPositions i < -1 := by
          rcases hG with ⟨ha, _⟩ | ⟨_, hb⟩
          · linarith
          · exact hb
        rw [if_neg hd]
        have htn : (((i : ℤ) + (-1)).toNat) = i - 1 := by omega
        have hden : t.markerPositions (i - 1) - t.markerPositions i =
            -(t.markerPositions i - t.markerPositions (i - 1)) := by ring
        have hgpos : 1 < t.markerPositions i - t.markerPositions (i - 1) := by linarith
        have hkey0 : 0 ≤ (t.markerHeights i - t.markerHeights (i - 1)) /
            (t.markerPositions i - t.markerPositions (i - 1)) :=
          div_nonneg (by linarith) (by linarith)
        have hkey1 : (t.markerHeights i - t.markerHeights (i - 1)) /
            (t.markerPositions i - t.markerPositions (i - 1)) ≤
            t.markerHeights i - t.markerHeights (i - 1) :=
          div_le_self (by linarith) (by linarith)
        have hlin : t.Linear i (-1) = t.markerHeights i -
            (t.markerHeights i - t.markerHeights (i - 1)) /
            (t.markerPositions i - t.markerPositions (i - 1)) := by
          rw [QuantileEstimator.Linear, htn, hden]
          push_cast
          rw [div_neg]
          ring
        refine upd_mono5 _ i _ h1 h3 hm ?_ ?_
        · rw [hlin]
          linarith
        · rw [hlin]
          linarith
  · rw [if_neg hG]
    exact hm

/-- AddObservation keeps the marker heights monotone from the fifth
observation on: the fifth call sorts them, and every later call preserves
monotonicity. -/
theorem AddObservation_mono (s : QuantileEstimator) (x : ℚ) (h5 : 5 ≤ s.numObservations)
    (hm : mono5 s.markerHeights) : mono5 (s.AddObservation x).markerHeights := by
  rw [QuantileEstimator.AddObservation, if_neg (by omega)]
  rw [QuantileEstimator.AdjustMarkerHeights]
  have hm1 : mono5 ({ s.AdjustMarkerPositions x with
      numObservations := s.numObservations + 1 } : QuantileEstimator).markerHeights :=
    AdjustMarkerPositions_mono s x hm
  exact AdjustHeightAt_mono _ 3 (by omega) (by omega)
    (AdjustHeightAt_mono _ 2 (by omega) (by omega)
      (AdjustHeightAt_mono _ 1 (by omega) (by omega) hm1))

/-- The position invariant holds for a freshly constructed estimator whose
target quantile lies in [0, 1]. -/
theorem posInv_init (q : ℚ) (hq0 : 0 ≤ q) (hq1 : q ≤ 1) :
    PosInv (QuantileEstimator.init q) := by
  refine ⟨rfl, ?_, ?_, ?_, ?_, ?_, ?_, ?_, ?_⟩
  · intro j hj
    interval_cases j <;> norm_num [QuantileEstimator.init, ofList]
  · intro i hi1 hi3
    interval_cases i <;> norm_num [QuantileEstimator.init, ofList]
  · norm_num [QuantileEstimator.init, ofList]
  · norm_num [QuantileEstimator.init, ofList]
  · norm_num [QuantileEstimator.init, ofList]
  · show (0 : ℚ) ≤ q / 2
    linarith
  · show q / 2 ≤ q
    linarith
  · show q ≤ (1 + q) / 2
    linarith

/-- One AddObservation call preserves the position invariant and never
decreases any marker position. -/
theorem AddObservation_posInv (s : QuantileEstimator) (x : ℚ) (hs : PosInv s) :
    PosInv (s.AddObservation x) ∧
    ∀ j, s.markerPositions j ≤ (s.AddObservation x).markerPositions j := by
  obtain ⟨hmp0, hstrict, hlag, hd1, hd21, hd32, hi1, hi12, hi23⟩ := hs
  have hinc_nn : ∀ i, 1 ≤ i → i ≤ 3 → 0 ≤ s.desiredMarkerPositionIncrements i := by
    intro i hia hib
    interval_cases i <;> linarith
  by_cases hn : s.numObservations < 5
  · simp only [QuantileEstimator.AddObservation]
    rw [if_pos hn]
    obtain ⟨hp, hdp, hinc, _⟩ := AddInitialObservation_fields s x
    refine ⟨⟨?_, ?_, ?_, ?_, ?_, ?_, ?_, ?_, ?_⟩, ?_⟩
    · rw [hp]; exact hmp0
    · rw [hp]; exact hstrict
    · rw [hp, hdp]; exact hlag
    · rw [hdp]; exact hd1
    · rw [hdp]; exact hd21
    · rw [hdp]; exact hd32
    · rw [hinc]; exact hi1
    · rw [hinc]; exact hi12
    · rw [hinc]; exact hi23
    · intro j; rw [hp]
  · simp only [QuantileEstimator.AddObservation]
    rw [if_neg hn]
    simp only [QuantileEstimator.AdjustMarkerHeights]
    generalize hgen : ({ s.AdjustMarkerPositions x with
      numObservations := s.numObservations + 1 } : QuantileEstimator) = t0
    obtain ⟨b, hb3, hmpf, hdmpf, hincf, _⟩ := AdjustMarkerPositions_shape s x
    have hmpj : ∀ j, t0.markerPositions j =
        if b + 1 ≤ j ∧ j < 5 then s.markerPositions j + 1 else s.markerPositions j := by
      intro j
      rw [← hgen]
      show (s.AdjustMarkerPositions x).markerPositions j = _
      rw [hmpf]
    have hdmpj : ∀ j, t0.desiredMarkerPositions j =
        if j < 5 then s.desiredMarkerPositions j + s.desiredMarkerPositionIncrements j
        else s.desiredMarkerPositions j := by
      intro j
      rw [← hgen]
      show (s.AdjustMarkerPositions x).desiredMarkerPositions j = _
      rw [hdmpf]
    have hincj : t0.desiredMarkerPositionIncrements = s.desiredMarkerPositionIncrements := by
      rw [← hgen]
      exact hincf
    -- facts about the state t0 after AdjustMarkerPositions
    have h00 : t0.markerPositions 0 = 0 := by
      rw [hmpj 0, if_neg (by omega)]
      exact hmp0
    have hdmp1 : t0.desiredMarkerPositions 1 =
        s.desiredMarkerPositions 1 + s.desiredMarkerPositionIncrements 1 := by
      rw [hdmpj 1, if_pos (by omega)]
    have hdmp2 : t0.desiredMarkerPositions 2 =
        s.desiredMarkerPositions 2 + s.desiredMarkerPositionIncrements 2 := by
      rw [hdmpj 2, if_pos (by omega)]
    have hdmp3 : t0.desiredMarkerPositions 3 =
        s.desiredMarkerPositions 3 + s.desiredMarkerPositionIncrements 3 := by
      rw [hdmpj 3, if_pos (by omega)]
    have hd1t : 1 ≤ t0.desiredMarkerPositions 1 := by
      rw [hdmp1]
      linarith
    have hd21t : 1 ≤ t0.desiredMarkerPositions 2 - t0.desiredMarkerPositions 1 := by
      rw [hdmp1, hdmp2]
      linarith
    have hd32t : 1 ≤ t0.desiredMarkerPositions 3 - t0.desiredMarkerPositions 2 := by
      rw [hdmp2, hdmp3]
      linarith
    have hstrict0 : strict5 t0.markerPositions := by
      intro j hj
      rw [hmpj j, hmpj (j + 1)]
      have hsj := hstrict j hj
      by_cases hcj : b + 1 ≤ j
      · rw [if_pos ⟨hcj, by omega⟩, if_pos ⟨by omega, by omega⟩]
        linarith
      · rw [if_neg (fun hh => hcj hh.1)]
        by_cases hcj1 : b + 1 ≤ j + 1
        · rw [if_pos ⟨hcj1, by omega⟩]
          linarith
        · rw [if_neg (fun hh => hcj1 hh.1)]
          exact hsj
    have hlag0 : ∀ i, 1 ≤ i → i ≤ 3 →
        -2 < t0.desiredMarkerPositions i - t0.markerPositions i := by
      intro i hia hib
      rw [hdmpj i, if_pos (by omega), hmpj i]
      have hlagi := hlag i hia hib
      have hinci := hinc_nn i hia hib
      by_cases hci : b + 1 ≤ i
      · rw [if_pos ⟨hci, by omega⟩]
        linarith
      · rw [if_neg (fun hh => hci hh.1)]
        linarith
    have hlagKeep : ∀ i, 1 ≤ i → i ≤ 3 → ¬ b + 1 ≤ i →
        -1 < t0.desiredMarkerPositions i - t0.markerPositions i := by
      intro i hia hib hci
      rw [hdmpj i, if_pos (by omega), hmpj i, if_neg (fun hh => hci hh.1)]
      have hlagi := hlag i hia hib
      have hinci := hinc_nn i hia hib
      linarith
    -- step at marker 1
    have hnb1 : t0.desiredMarkerPositions 1 - t0.markerPositions 1 ≤ -1 →
        1 < t0.markerPositions 1 - t0.markerPositions 0 := by
      intro hle
      rw [h00]
      linarith
    obtain ⟨hstrict1, hlag1, hunch1, hlb1, hkeep1⟩ :=
      AdjustHeightAt_posStep t0 1 (by norm_num) (by norm_num) hstrict0
        (hlag0 1 (by norm_num) (by norm_num)) hnb1
    have hdmpe1 : (t0.AdjustHeightAt 1).desiredMarkerPositions =
        t0.desiredMarkerPositions := (AdjustHeightAt_shape t0 1).1
    have hince1 : (t0.AdjustHeightAt 1).desiredMarkerPositionIncrements =
        t0.desiredMarkerPositionIncrements := (AdjustHeightAt_shape t0 1).2.1
    -- step at marker 2
    have hnb2 : (t0.AdjustHeightAt 1).desiredMarkerPositions 2 -
        (t0.AdjustHeightAt 1).markerPositions 2 ≤ -1 →
        1 < (t0.AdjustHeightAt 1).markerPositions 2 -
          (t0.AdjustHeightAt 1).markerPositions 1 := by
      intro hle
      rw [hdmpe1, hunch1 2 (by norm_num)] at hle
      rw [hunch1 2 (by norm_num)]
      linarith
    obtain ⟨hstrict2, hlag2, hunch2, hlb2, hkeep2⟩ :=
      AdjustHeightAt_posStep (t0.AdjustHeightAt 1) 2 (by norm_num) (by norm_num) hstrict1
        (by rw [hdmpe1, hunch1 2 (by norm_num)]
            exact hlag0 2 (by norm_num) (by norm_num)) hnb2
    rw [hdmpe1] at hlag2
    have hdmpe2 : ((t0.AdjustHeightAt 1).AdjustHeightAt 2).desiredMarkerPositions =
        t0.desiredMarkerPositions := by
      rw [(AdjustHeightAt_shape (t0.AdjustHeightAt 1) 2).1, hdmpe1]
    have hince2 : ((t0.AdjustHeightAt 1).AdjustHeightAt 2).desiredMarkerPositionIncrements =
        t0.desiredMarkerPositionIncrements := by
      rw [(AdjustHeightAt_shape (t0.AdjustHeightAt 1) 2).2.1, hince1]
    -- step at marker 3
    have hmp3e : ((t0.AdjustHeightAt 1).AdjustHeightAt 2).markerPositions 3 =
        t0.markerPositions 3 := by
      rw [hunch2 3 (by norm_num), hunch1 3 (by norm_num)]
    have hnb3 : ((t0.AdjustHeightAt 1).AdjustHeightAt 2).desiredMarkerPositions 3 -
        ((t0.AdjustHeightAt 1).AdjustHeightAt 2).markerPositions 3 ≤ -1 →
        1 < ((t0.AdjustHeightAt 1).AdjustHeightAt 2).markerPositions 3 -
          ((t0.AdjustHeightAt 1).AdjustHeightAt 2).markerPositions 2 := by
      intro hle
      rw [hdmpe2, hmp3e] at hle
      rw [hmp3e]
      linarith
    obtain ⟨hstrict3, hlag3, hunch3, hlb3, hkeep3⟩ :=
      AdjustHeightAt_posStep ((t0.AdjustHeightAt 1).AdjustHeightAt 2) 3
        (by norm_num) (by norm_num) hstrict2
        (by rw [hdmpe2, hmp3e]
            exact hlag0 3 (by norm_num) (by norm_num)) hnb3
    rw [hdmpe2] at hlag3
    have hdmpe3 : (((t0.AdjustHeightAt 1).AdjustHeightAt 2).AdjustHeightAt 3).desiredMarkerPositions =
        t0.desiredMarkerPositions := by
      rw [(AdjustHeightAt_shape ((t0.AdjustHeightAt 1).AdjustHeightAt 2) 3).1, hdmpe2]
    have hince3 : (((t0.AdjustHeightAt 1).AdjustHeightAt 2).AdjustHeightAt 3).desiredMarkerPositionIncrements =
        t0.desiredMarkerPositionIncrements := by
      rw [(AdjustHeightAt_shape ((t0.AdjustHeightAt 1).AdjustHeightAt 2) 3).2.1, hince2]
    -- equalities for untouched positions in the final state
    have hfin1 : (((t0.AdjustHeightAt 1).AdjustHeightAt 2).AdjustHeightAt 3).markerPositions 1 =
        (t0.AdjustHeightAt 1).markerPositions 1 := by
      rw [hunch3 1 (by norm_num), hunch2 1 (by norm_num)]
    have hfin2 : (((t0.AdjustHeightAt 1).AdjustHeightAt 2).AdjustHeightAt 3).markerPositions 2 =
        ((t0.AdjustHeightAt 1).AdjustHeightAt 2).markerPositions 2 := by
      rw [hunch3 2 (by norm_num)]
    have hfin0 : (((t0.AdjustHeightAt 1).AdjustHeightAt 2).AdjustHeightAt 3).markerPositions 0 =
        0 := by
      rw [hunch3 0 (by norm_num), hunch2 0 (by norm_num), hunch1 0 (by norm_num), h00]
    have hfin4 : (((t0.AdjustHeightAt 1).AdjustHeightAt 2).AdjustHeightAt 3).markerPositions 4 =
        t0.markerPositions 4 := by
      rw [hunch3 4 (by norm_num), hunch2 4 (by norm_num), hunch1 4 (by norm_num)]
    refine ⟨⟨hfin0, hstrict3, ?_, ?_, ?_, ?_, ?_, ?_, ?_⟩, ?_⟩
    · intro i hia hib
      rw [hdmpe3]
      interval_cases i
      · rw [hfin1]
        exact hlag1
      · rw [hfin2]
        exact hlag2
      · exact hlag3
    · rw [hdmpe3]
      exact hd1t
    · rw [hdmpe3]
      exact hd21t
    · rw [hdmpe3]
      exact hd32t
    · rw [hince3, hincj]
      exact hi1
    · rw [hince3, hincj]
      exact hi12
    · rw [hince3, hincj]
      exact hi23
    · intro j
      by_cases hj5 : j < 5
      · interval_cases j
        · rw [hfin0, hmp0]
        · rw [hfin1]
          by_cases hb1 : b + 1 ≤ 1
          · have : t0.markerPositions 1 = s.markerPositions 1 + 1 := by
              rw [hmpj 1, if_pos ⟨hb1, by omega⟩]
            linarith
          · have heq : t0.markerPositions 1 = s.markerPositions 1 := by
              rw [hmpj 1, if_neg (fun hh => hb1 hh.1)]
            have := hkeep1 (hlagKeep 1 (by norm_num) (by norm_num) hb1)
            linarith
        · rw [hfin2]
          have hm2 : (t0.AdjustHeightAt 1).markerPositions 2 = t0.markerPositions 2 :=
            hunch1 2 (by norm_num)
          by_cases hb2 : b + 1 ≤ 2
          · have : t0.markerPositions 2 = s.markerPositions 2 + 1 := by
              rw [hmpj 2, if_pos ⟨hb2, by omega⟩]
            have hl := hlb2
            rw [hm2] at hl
            linarith
          · have heq : t0.markerPositions 2 = s.markerPositions 2 := by
              rw [hmpj 2, if_neg (fun hh => hb2 hh.1)]
            have hkp := hkeep2 (by rw [hdmpe1, hm2]
                                   exact hlagKeep 2 (by norm_num) (by norm_num) hb2)
            rw [hm2] at hkp
            linarith
        · have hm3 : ((t0.AdjustHeightAt 1).AdjustHeightAt 2).markerPositions 3 =
              t0.markerPositions 3 := hmp3e
          by_cases hb3' : b + 1 ≤ 3
          · have : t0.markerPositions 3 = s.markerPositions 3 + 1 := by
              rw [hmpj 3, if_pos ⟨hb3', by omega⟩]
            have hl := hlb3
            rw [hm3] at hl
            linarith
          · have heq : t0.markerPositions 3 = s.markerPositions 3 := by
              rw [hmpj 3, if_neg (fun hh => hb3' hh.1)]
            have hkp := hkeep3 (by rw [hdmpe2, hm3]
                                   exact hlagKeep 3 (by norm_num) (by norm_num) hb3')
            rw [hm3] at hkp
            linarith
        · rw [hfin4]
          have : t0.markerPositions 4 = s.markerPositions 4 + 1 := by
            rw [hmpj 4, if_pos (by omega)]
          linarith
      · have hout : t0.markerPositions j = s.markerPositions j := by
          rw [hmpj j, if_neg (fun hh => hj5 hh.2)]
        rw [hunch3 j (by omega), hunch2 j (by omega), hunch1 j (by omega), hout]

/-- The position invariant holds after any stream of observations. -/
theorem posInv_runQE (q : ℚ) (hq0 : 0 ≤ q) (hq1 : q ≤ 1) (xs : List ℚ) :
    PosInv (runQE q xs) := by
  suffices h : ∀ s : QuantileEstimator, PosInv s →
      PosInv (xs.foldl QuantileEstimator.AddObservation s) by
    exact h _ (posInv_init q hq0 hq1)
  induction xs with
  | nil => intro s hs; exact hs
  | cons y rest ih =>
    intro s hs
    rw [List.foldl_cons]
    exact ih _ (AddObservation_posInv s y hs).1

/- Claim theorems. -/

/-- C3 (confirmed): for every input stream fed to a QuantileEstimator whose
target quantile lies in [0, 1], the marker positions strictly increase from
index 0 to index 4 at all times, and after the 5th observation no marker
position ever decreases across successive AddObservation calls. -/
theorem C3_markerPositionsMonotone :
    ∀ (q : ℚ) (xs : List ℚ) (x : ℚ), 0 ≤ q → q ≤ 1 →
      strict5 (runQE q xs).markerPositions ∧
      (5 ≤ xs.length →
        ∀ j, (runQE q xs).markerPositions j ≤ (runQE q (xs ++ [x])).markerPositions j) := by
  intro q xs x hq0 hq1
  have hinv := posInv_runQE q hq0 hq1 xs
  refine ⟨hinv.2.1, fun h5 j => ?_⟩
  have hstep : runQE q (xs ++ [x]) = (runQE q xs).AddObservation x := by
    simp only [runQE, List.foldl_append, List.foldl_cons, List.foldl_nil]
  rw [hstep]
  exact (AddObservation_posInv _ x hinv).2 j

/-- C3 witness: strict ordering of the first adjacent position pair after five
observations, and monotonicity of marker position 1 across the sixth call. -/
theorem C3_markerPositionsMonotone_witness :
    (runQE (1 / 2) [10, 20, 30, 40, 50]).markerPositions 0 <
      (runQE (1 / 2) [10, 20, 30, 40, 50]).markerPositions 1 ∧
    (runQE (1 / 2) [10, 20, 30, 40, 50]).markerPositions 1 ≤
      (runQE (1 / 2) ([10, 20, 30, 40, 50] ++ [7])).markerPositions 1 :=
  ⟨(C3_markerPositionsMonotone (1 / 2) [10, 20, 30, 40, 50] 7 (by norm_num)
      (by norm_num)).1 0 (by norm_num),
   (C3_markerPositionsMonotone (1 / 2) [10, 20, 30, 40, 50] 7 (by norm_num)
      (by norm_num)).2 (by decide) 1⟩

/-- C4 counterexample: after a single AddObservation call with observation 5
the marker heights read (5, 0, 0, 0, 0) in arrival order, which is not sorted
ascending, refuting sortedness after each of the first four calls. -/
theorem C4_heightsSorted_counterexample :
    (runQE (1 / 2) [5]).markerHeights 0 = 5 ∧
    (runQE (1 / 2) [5]).markerHeights 1 = 0 ∧
    ¬ mono5 (runQE (1 / 2) [5]).markerHeights := by
  have h0 : (runQE (1 / 2) [5]).markerHeights 0 = 5 := by decide
  have h1 : (runQE (1 / 2) [5]).markerHeights 1 = 0 := by decide
  refine ⟨h0, h1, fun hm => ?_⟩
  have h01 := hm 0 (by norm_num)
  rw [h0, h1] at h01
  norm_num at h01

/-- C4 (corrected): for any input order, after every call to
QuantileEstimator::AddObservation from the fifth one on, the five marker
heights are sorted ascending; during the first four calls they are stored in
arrival order and need not be sorted. -/
theorem C4_heightsSortedFromFifth :
    ∀ (q : ℚ) (xs : List ℚ), 5 ≤ xs.length → mono5 (runQE q xs).markerHeights := by
  intro q xs
  induction xs using List.reverseRecOn with
  | nil =>
    intro h
    norm_num at h
  | append_singleton ys x ih =>
    intro h
    have hstep : runQE q (ys ++ [x]) = (runQE q ys).AddObservation x := by
      simp only [runQE, List.foldl_append, List.foldl_cons, List.foldl_nil]
    rw [hstep]
    rw [List.length_append, List.length_singleton] at h
    rcases Nat.eq_or_lt_of_le (by omega : 4 ≤ ys.length) with hlen4 | hlen5
    · simp only [QuantileEstimator.AddObservation]
      rw [if_pos (by rw [runQE_numObservations]; omega)]
      simp only [QuantileEstimator.AddInitialObservation]
      rw [if_pos (by rw [runQE_numObservations]; omega)]
      exact mono5_sortHeights _
    · exact AddObservation_mono _ x (by rw [runQE_numObservations]; omega)
        (ih (by omega))

/-- C4 witness: the sortedness theorem applied to a concrete five-observation
stream, instantiated at the first adjacent pair. -/
theorem C4_heightsSortedFromFifth_witness :
    (runQE (1 / 2) [10, 20, 30, 40, 50]).markerHeights 0 ≤
      (runQE (1 / 2) [10, 20, 30, 40, 50]).markerHeights 1 :=
  C4_heightsSortedFromFifth (1 / 2) [10, 20, 30, 40, 50] (by decide) 0 (by norm_num)

/-- C5 (confirmed): for every non-negative difference d and bucket width w > 0
the bucket index is the bit width of d / w clamped to 4: bucket 0 exactly for
zero deviations, bucket 1 for one deviation, bucket 2 for deviations in
[2, 4), bucket 3 for deviations in [4, 8), bucket 4 for deviations ≥ 8; and
with w = 1000 the differences 0, 999, 1000, 3999, 7999, 100000 land in
buckets 0, 0, 1, 2, 3, 4 respectively. -/
theorem C5_bucketRule :
    (∀ d w, 0 < w →
      (GetBucketIndex d w BucketCount = some 0 ↔ d / w = 0) ∧
      (GetBucketIndex d w BucketCount = some 1 ↔ d / w = 1) ∧
      (GetBucketIndex d w BucketCount = some 2 ↔ 2 ≤ d / w ∧ d / w < 4) ∧
      (GetBucketIndex d w BucketCount = some 3 ↔ 4 ≤ d / w ∧ d / w < 8) ∧
      (GetBucketIndex d w BucketCount = some 4 ↔ 8 ≤ d / w)) ∧
    GetBucketIndex 0 1000 BucketCount = some 0 ∧
    GetBucketIndex 999 1000 BucketCount = some 0 ∧
    GetBucketIndex 1000 1000 BucketCount = some 1 ∧
    GetBucketIndex 3999 1000 BucketCount = some 2 ∧
    GetBucketIndex 7999 1000 BucketCount = some 3 ∧
    GetBucketIndex 100000 1000 BucketCount = some 4 := by
  constructor
  · intro d w hw
    have h0 := bitWidth_le_iff (d / w) 0
    have h1 := bitWidth_le_iff (d / w) 1
    have h2 := bitWidth_le_iff (d / w) 2
    have h3 := bitWidth_le_iff (d / w) 3
    norm_num at h0 h1 h2 h3
    simp only [GetBucketIndex, BucketCount, if_neg (Nat.pos_iff_ne_zero.mp hw),
      Option.some.injEq]
    generalize d / w = dev at h0 h1 h2 h3 ⊢
    rcases le_total (bitWidth dev) (5 - 1) with hple | hple
    · rw [min_eq_left hple]
      omega
    · rw [min_eq_right hple]
      omega
  · refine ⟨by decide, by decide, by decide, by decide, by decide, by decide⟩

/-- C5 witness: the general bucket rule applied at d = 45000, w = 1000. -/
theorem C5_bucketRule_witness :
    GetBucketIndex 45000 1000 BucketCount = some 4 ↔ 8 ≤ 45000 / 1000 :=
  (C5_bucketRule.1 45000 1000 (by norm_num)).2.2.2.2

/-- C9 (confirmed): in EthercatNicTest::Receive a poll timeout (poll result 0)
returns no frame, a failing recvmsg (negative result) returns no frame, and a
negative poll result raises the fatal poll error. -/
theorem C9_receiveErrorDispatch :
    ∀ pollResult recvResult : ℤ,
      (pollResult < 0 →
        receiveDispatch pollResult recvResult = ReceiveOutcome.fatalPollError) ∧
      (pollResult = 0 →
        receiveDispatch pollResult recvResult = ReceiveOutcome.noFrame) ∧
      (0 < pollResult → recvResult < 0 →
        receiveDispatch pollResult recvResult = ReceiveOutcome.noFrame) ∧
      (0 < pollResult → 0 ≤ recvResult →
        receiveDispatch pollResult recvResult = ReceiveOutcome.frameProcessed) := by
  intro pollResult recvResult
  refine ⟨fun h => ?_, fun h => ?_, fun h h2 => ?_, fun h h2 => ?_⟩ <;>
    simp only [receiveDispatch] <;> split_ifs <;> first | rfl | omega

/-- C9 witness: the dispatch rules applied at concrete poll and recv results. -/
theorem C9_receiveErrorDispatch_witness :
    receiveDispatch (-1) 0 = ReceiveOutcome.fatalPollError ∧
    receiveDispatch 0 0 = ReceiveOutcome.noFrame ∧
    receiveDispatch 1 (-1) = ReceiveOutcome.noFrame ∧
    receiveDispatch 1 20 = ReceiveOutcome.frameProcessed :=
  ⟨(C9_receiveErrorDispatch (-1) 0).1 (by norm_num),
   (C9_receiveErrorDispatch 0 0).2.1 rfl,
   (C9_receiveErrorDispatch 1 (-1)).2.2.1 (by norm_num) (by norm_num),
   (C9_receiveErrorDispatch 1 20).2.2.2 (by norm_num) (by norm_num)⟩

/-- C6 (confirmed): per clock domain, the first timestamp update stores the
value and emits nothing; a later update with non-negative delta emits the
delta and stores the value; an update with negative delta emits nothing but
still overwrites the stored previous value; hence the stream T, T+500, T+300,
T+800 emits nothing, 500, nothing, 500. -/
theorem C6_deltaTracker :
    ∀ (s : DomainState) (currentNs T : ℤ),
      (s.HaveTimestamp = false →
        updateDomain s currentNs = (⟨true, currentNs⟩, none)) ∧
      (s.HaveTimestamp = true → s.PrevNanoseconds ≤ currentNs →
        updateDomain s currentNs = (⟨true, currentNs⟩, some (currentNs - s.PrevNanoseconds))) ∧
      (s.HaveTimestamp = true → currentNs < s.PrevNanoseconds →
        updateDomain s currentNs = (⟨true, currentNs⟩, none)) ∧
      (runDomain DomainState.init [T, T + 500, T + 300, T + 800]).2 =
        [none, some 500, none, some 500] := by
  intro s currentNs T
  refine ⟨fun h => ?_, fun h h2 => ?_, fun h h2 => ?_, ?_⟩
  · simp [updateDomain, h]
  · simp [updateDomain, h, sub_nonneg.mpr h2]
  · have hneg : ¬ (0 ≤ currentNs - s.PrevNanoseconds) := by omega
    simp [updateDomain, h, hneg]
  · simp only [runDomain, updateDomain, DomainState.init]
    norm_num

/-- C6 witness: the update rules applied at concrete states and timestamps. -/
theorem C6_deltaTracker_witness :
    updateDomain ⟨false, 0⟩ 100 = (⟨true, 100⟩, none) ∧
    updateDomain ⟨true, 100⟩ 600 = (⟨true, 600⟩, some 500) ∧
    updateDomain ⟨true, 600⟩ 300 = (⟨true, 300⟩, none) :=
  ⟨(C6_deltaTracker ⟨false, 0⟩ 100 0).1 rfl,
   (C6_deltaTracker ⟨true, 100⟩ 600 0).2.1 rfl (by norm_num),
   (C6_deltaTracker ⟨true, 600⟩ 300 0).2.2.1 rfl (by norm_num)⟩

/-- C10 (confirmed): GetBucketIndex is total exactly when the bucket width is
positive, a TimerReport built with the default bucket width 0 of the
configuration structures faults (divides by zero) on its very first
AddObservation, and any positive bucket width makes AddObservation total. -/
theorem C10_bucketWidthZeroFault :
    (∀ element bucketWidth bucketCount,
      (GetBucketIndex element bucketWidth bucketCount).isSome ↔ 0 < bucketWidth) ∧
    (∀ target observation index,
      (TimerReport.init target 0).AddObservation observation index = none) ∧
    (∀ target bucketWidth observation index, 0 < bucketWidth →
      ((TimerReport.init target bucketWidth).AddObservation observation index).isSome) := by
  refine ⟨fun e w c => ?_, fun t obs idx => ?_, fun t w obs idx hw => ?_⟩
  · rcases Nat.eq_zero_or_pos w with h | h
    · subst h
      simp [GetBucketIndex]
    · simp [GetBucketIndex, Nat.pos_iff_ne_zero.mp h, h]
  · simp [TimerReport.AddObservation, TimerReport.init, GetBucketIndex]
  · simp [TimerReport.AddObservation, TimerReport.init, GetBucketIndex,
      Nat.pos_iff_ne_zero.mp hw]

/-- C10 witness: bucket width 8 is accepted and the first observation on a
default-width (zero) report faults, at concrete inputs. -/
theorem C10_bucketWidthZeroFault_witness :
    ((TimerReport.init 0 8).AddObservation 3 1).isSome ∧
    (TimerReport.init 0 0).AddObservation 3 1 = none :=
  ⟨C10_bucketWidthZeroFault.2.2 0 8 3 1 (by norm_num),
   C10_bucketWidthZeroFault.2.1 0 3 1⟩

/-- C1 counterexample: in the end-to-end scenario (bucket width 10000, target
0, observations 5000, 15000, 45000, 1000000) the claimed bucket counts
[1, 1, 1, 1, 0] are wrong: bucket 2 receives no observation and bucket 4
receives one. -/
theorem C1_endToEnd_counterexample :
    (runReport (TimerReport.init 0 10000)
        [(5000, 1), (15000, 2), (45000, 3), (1000000, 4)]).map
      (fun r => (r.buckets 2, r.buckets 4)) = some (0, 1) ∧
    ((0 : ℕ), (1 : ℕ)) ≠ ((1 : ℕ), (0 : ℕ)) := by
  constructor
  · decide
  · decide

/-- C1 (corrected): with bucket width 10000 and target 0, feeding 5000, 15000,
45000, 1000000 yields bucket counts [1, 1, 0, 1, 1] in buckets [0..4] per the
bit-width rule (45000 gives 4 deviations, bit width 3, hence bucket 3;
1000000 gives 100 deviations, clamped to bucket 4), with count 4 and
sum 1065000. -/
theorem C1_endToEnd :
    (runReport (TimerReport.init 0 10000)
        [(5000, 1), (15000, 2), (45000, 3), (1000000, 4)]).map
      (fun r => (r.buckets 0, r.buckets 1, r.buckets 2, r.buckets 3, r.buckets 4,
        r.observations, r.sum)) = some (1, 1, 0, 1, 1, 4, 1065000) := by
  rfl

/-- C2 counterexample: three observations equal to 1 are fewer than five, yet
GetQuantile returns 1, not 0 (the third call writes marker height 2). -/
theorem C2_fewerThanFive_counterexample :
    (([(1 : ℚ), 1, 1].length < 5) = True) ∧
    (runQE (1 / 2) [1, 1, 1]).GetQuantile = 1 ∧ (1 : ℚ) ≠ 0 := by
  refine ⟨by decide, ?_, by decide⟩
  decide

/-- C2 (corrected): for every sequence of fewer than 3 calls to
QuantileEstimator::AddObservation, GetQuantile() returns 0; from the third
call on the returned value is the stored third observation, so it need not
be 0. -/
theorem C2_fewerThanThree :
    ∀ (q : ℚ) (xs : List ℚ), xs.length < 3 → (runQE q xs).GetQuantile = 0 := by
  intro q xs h
  rcases xs with _ | ⟨a, _ | ⟨b, _ | ⟨c, rest⟩⟩⟩
  · simp [runQE, QuantileEstimator.GetQuantile, QuantileEstimator.init, ofList]
  · simp [runQE, QuantileEstimator.GetQuantile, QuantileEstimator.init,
      QuantileEstimator.AddObservation, QuantileEstimator.AddInitialObservation, upd, ofList]
  · simp [runQE, QuantileEstimator.GetQuantile, QuantileEstimator.init,
      QuantileEstimator.AddObservation, QuantileEstimator.AddInitialObservation, upd, ofList]
  · simp only [List.length_cons] at h
    omega

/-- C2 witness: two observations leave the reported quantile at 0. -/
theorem C2_fewerThanThree_witness : (runQE (1 / 2) [3, 4]).GetQuantile = 0 :=
  C2_fewerThanThree (1 / 2) [3, 4] (by decide)

/-- C7 (confirmed): after every completed TimerReport::AddObservation call
(any observation sequence, any target, any bucket width for which the calls
complete), the sum of the five histogram bucket counts equals the total
observation count. -/
theorem C7_histogramTotal :
    ∀ (xs : List (ℕ × ℤ)) (target bucketWidth : ℕ) (r : TimerReport),
      runReport (TimerReport.init target bucketWidth) xs = some r →
      sumBuckets r = r.observations := by
  intro xs target bucketWidth r h
  refine runReport_sumBuckets xs _ r h ?_
  rfl

/-- C7 witness: the invariant applied to a concrete two-observation run. -/
theorem C7_histogramTotal_witness :
    (runReport (TimerReport.init 0 10) [(5, 1), (20, 2)]).map
      (fun r => (sumBuckets r, r.observations)) = some (2, 2) := by
  obtain ⟨r, hr⟩ : ∃ r, runReport (TimerReport.init 0 10) [(5, 1), (20, 2)] = some r :=
    ⟨_, rfl⟩
  have hsum := C7_histogramTotal [(5, 1), (20, 2)] 0 10 r hr
  have hobs : (runReport (TimerReport.init 0 10) [(5, 1), (20, 2)]).map
      (fun t => t.observations) = some 2 := by rfl
  rw [hr] at hobs ⊢
  simp only [Option.map_some', Option.some.injEq] at hobs ⊢
  rw [hsum, hobs]

/-- C8 counterexample: feeding the single pair (value 0, index 7) leaves
maxIndex at the sentinel -1 although the first (and only) occurrence of the
maximum value 0 has index argument 7, because 0 > 0 is false. -/
theorem C8_minMaxTracking_counterexample :
    (runReport (TimerReport.init 0 1) [((0 : ℕ), (7 : ℤ))]).map
      (fun r => (r.max, r.maxIndex)) = some (0, -1) ∧ ((-1 : ℤ) ≠ 7) := by
  exact ⟨rfl, by decide⟩

/-- C8 (corrected): for every non-empty sequence of (value, index) pairs of
uint64 values fed to TimerReport::AddObservation, the stored min and max equal
the minimum and maximum of all fed values (so min ≤ every fed value ≤ max),
and minIndex / maxIndex are the index arguments of the first occurrence of the
respective extreme value provided that extreme beats the constructor sentinel
(min < 2^64 - 1, respectively max > 0); otherwise the sentinel index -1 is
kept. -/
theorem C8_minMaxTracking :
    ∀ (xs : List (ℕ × ℤ)) (target bucketWidth : ℕ) (r : TimerReport),
      runReport (TimerReport.init target bucketWidth) xs = some r →
      (∀ p ∈ xs, p.1 < uint64Mod) →
      xs ≠ [] →
      (r.min ∈ xs.map Prod.fst ∧ ∀ v ∈ xs.map Prod.fst, r.min ≤ v) ∧
      (r.max ∈ xs.map Prod.fst ∧ ∀ v ∈ xs.map Prod.fst, v ≤ r.max) ∧
      (r.min < uint64Max →
        xs.find? (fun p => p.1 = r.min) = some (r.min, r.minIndex)) ∧
      (0 < r.max →
        xs.find? (fun p => p.1 = r.max) = some (r.max, r.maxIndex)) := by
  intro xs target bucketWidth r h hbound hne
  obtain ⟨hminval, hmaxval⟩ := runReport_minmax xs _ r h
  have hminle : ∀ v ∈ xs.map Prod.fst, r.min ≤ v := by
    intro v hv
    rw [hminval]
    exact foldl_min_le_mem _ _ v hv
  have hmaxge : ∀ v ∈ xs.map Prod.fst, v ≤ r.max := by
    intro v hv
    rw [hmaxval]
    exact foldl_max_ge_mem _ _ v hv
  have hvle : ∀ v ∈ xs.map Prod.fst, v ≤ uint64Max := by
    intro v hv
    obtain ⟨p, hp, hpv⟩ := List.mem_map.mp hv
    have := hbound p hp
    simp only [uint64Max]
    omega
  obtain ⟨p0, hp0⟩ := List.exists_mem_of_ne_nil xs hne
  have hv0 : p0.1 ∈ xs.map Prod.fst := List.mem_map.mpr ⟨p0, hp0, rfl⟩
  have hminmem : r.min ∈ xs.map Prod.fst := by
    rcases foldl_min_attained (xs.map Prod.fst) (TimerReport.init target bucketWidth).min
      with hat | hat
    · have hini : (TimerReport.init target bucketWidth).min = uint64Max := rfl
      have h1 : r.min ≤ p0.1 := hminle p0.1 hv0
      have h2 : p0.1 ≤ uint64Max := hvle p0.1 hv0
      have h3 : r.min = uint64Max := by rw [hminval, hat, hini]
      have : r.min = p0.1 := by omega
      rw [this]
      exact hv0
    · rw [hminval]
      exact hat
  have hmaxmem : r.max ∈ xs.map Prod.fst := by
    rcases foldl_max_attained (xs.map Prod.fst) (TimerReport.init target bucketWidth).max
      with hat | hat
    · have hini : (TimerReport.init target bucketWidth).max = 0 := rfl
      have h1 : p0.1 ≤ r.max := hmaxge p0.1 hv0
      have h3 : r.max = 0 := by rw [hmaxval, hat, hini]
      have : r.max = p0.1 := by omega
      rw [this]
      exact hv0
    · rw [hmaxval]
      exact hat
  refine ⟨⟨hminmem, hminle⟩, ⟨hmaxmem, hmaxge⟩, fun hlt => ?_, fun hlt => ?_⟩
  · exact (runReport_minIndex xs _ r h).1 hlt
  · exact (runReport_maxIndex xs _ r h).1 hlt

/-- C8 witness: on the run (5,1), (3,2), (9,3), (3,4) the tracked minimum 3
carries first-occurrence index 2 and the tracked maximum 9 index 3. -/
theorem C8_minMaxTracking_witness :
    (runReport (TimerReport.init 0 1) [((5 : ℕ), (1 : ℤ)), (3, 2), (9, 3), (3, 4)]).map
      (fun r => (r.min, r.minIndex, r.max, r.maxIndex)) = some (3, 2, 9, 3) := by
  obtain ⟨r, hr⟩ :
      ∃ r, runReport (TimerReport.init 0 1) [((5 : ℕ), (1 : ℤ)), (3, 2), (9, 3), (3, 4)] =
        some r := ⟨_, rfl⟩
  obtain ⟨-, -, hminfind, hmaxfind⟩ :=
    C8_minMaxTracking [((5 : ℕ), (1 : ℤ)), (3, 2), (9, 3), (3, 4)] 0 1 r hr
      (by decide) (by decide)
  have hminv : r.min = 3 := by
    have h1 : (runReport (TimerReport.init 0 1)
        [((5 : ℕ), (1 : ℤ)), (3, 2), (9, 3), (3, 4)]).map (fun t => t.min) = some r.min := by
      rw [hr]
      rfl
    have h2 : (runReport (TimerReport.init 0 1)
        [((5 : ℕ), (1 : ℤ)), (3, 2), (9, 3), (3, 4)]).map (fun t => t.min) = some 3 := by rfl
    rw [h1] at h2
    exact Option.some.inj h2
  have hmaxv : r.max = 9 := by
    have h1 : (runReport (TimerReport.init 0 1)
        [((5 : ℕ), (1 : ℤ)), (3, 2), (9, 3), (3, 4)]).map (fun t => t.max) = some r.max := by
      rw [hr]
      rfl
    have h2 : (runReport (TimerReport.init 0 1)
        [((5 : ℕ), (1 : ℤ)), (3, 2), (9, 3), (3, 4)]).map (fun t => t.max) = some 9 := by rfl
    rw [h1] at h2
    exact Option.some.inj h2
  have hmini : r.minIndex = 2 := by
    have hf := hminfind (by rw [hminv]; norm_num [uint64Max, uint64Mod])
    rw [hminv] at hf
    have heval : List.find? (fun p => p.1 = 3)
        [((5 : ℕ), (1 : ℤ)), (3, 2), (9, 3), (3, 4)] = some (3, 2) := by decide
    rw [heval] at hf
    exact (congrArg Prod.snd (Option.some.inj hf)).symm
  have hmaxi : r.maxIndex = 3 := by
    have hf := hmaxfind (by rw [hmaxv]; norm_num)
    rw [hmaxv] at hf
    have heval : List.find? (fun p => p.1 = 9)
        [((5 : ℕ), (1 : ℤ)), (3, 2), (9, 3), (3, 4)] = some (9, 3) := by decide
    rw [heval] at hf
    exact (congrArg Prod.snd (Option.some.inj hf)).symm
  rw [hr]
  simp only [Option.map_some', Option.some.injEq]
  rw [hminv, hmini, hmaxv, hmaxi]

end Evaluator
